import Mathlib

/-!
Verification development for the uNAS architecture-search core.

The repository sources under verification are `uNAS/cnn2d/cnn2d_search_space.py`
and `uNAS/examples.py`.  The facade `Cnn2DSearchSpace` delegates to the modules
`cnn2d_schema` (`get_schema`), `cnn2d_random_generators` (`random_arch_2d`) and
`cnn2d_morphisms` (`produce_all_morphs`), and the engine-side components
(bound policy, aging-evolutionary engine, checkpoint manager) live outside the
provided sources; those parts are modelled from the specification, as marked in
each doc comment.
-/

namespace UNAS

/-- Parameter domain of one operation kind: legal width range and legal
auxiliary-parameter range (integer ranges, per the schema's declarative
description of legal parameter domains). -/
structure OpDomain where
  widthLo : Nat
  widthHi : Nat
  paramLo : Nat
  paramHi : Nat
deriving DecidableEq, Repr

/-- Modelled from the spec: the `SchemaType` produced by the missing module
`uNAS/cnn2d/cnn2d_schema.py`.  A schema maps each operation kind to its legal
parameter domains, gives the legal adjacency rules (which operation kinds may
follow which), the legal starting kinds, and a bounded maximum depth. -/
structure Schema where
  numKinds : Nat
  domain : Nat → OpDomain
  adj : Nat → Nat → Bool
  startOk : Nat → Bool
  maxDepth : Nat

/-- One node of an architecture graph: an operation kind together with a
parameter assignment (a width and an auxiliary parameter) drawn from the
schema's domain for that kind. -/
structure Node where
  kind : Nat
  width : Nat
  param : Nat
deriving DecidableEq, Repr

/-- Modelled from the spec: the `ArchType` of the missing architecture module.
An architecture is a directed graph with a single source and a single sink;
with the chain connectivity used by the 2D-CNN space it is the list of nodes
from source to sink, edges running between consecutive nodes. -/
structure Architecture where
  nodes : List Node
deriving DecidableEq, Repr

/-- A node's parameters lie inside the schema domain of its kind. -/
def nodeOk (s : Schema) (n : Node) : Bool :=
  decide (n.kind < s.numKinds) &&
  decide ((s.domain n.kind).widthLo ≤ n.width) &&
  decide (n.width ≤ (s.domain n.kind).widthHi) &&
  decide ((s.domain n.kind).paramLo ≤ n.param) &&
  decide (n.param ≤ (s.domain n.kind).paramHi)

/-- Every edge of the chain is legal under the schema adjacency rules. -/
def chainOk (s : Schema) : List Node → Bool
  | [] => true
  | [_] => true
  | a :: b :: rest => s.adj a.kind b.kind && chainOk s (b :: rest)

/-- Modelled from the spec: `validate(architecture) -> bool` of the missing
schema module.  Checks structural connectivity rules (nonempty single
source/sink chain, legal start kind, legal adjacency on every edge), bounded
depth, and per-node parameter-domain membership. -/
def validate (s : Schema) (A : Architecture) : Bool :=
  match A.nodes with
  | [] => false
  | n :: _ =>
      s.startOk n.kind &&
      decide (A.nodes.length ≤ s.maxDepth) &&
      A.nodes.all (nodeOk s) &&
      chainOk s A.nodes

/-- Modelled from the spec: `get_schema()` of the missing module
`uNAS/cnn2d/cnn2d_schema.py`.  A concrete declarative schema instance for the
2D-CNN space: kind 0 is a convolution (widths 1..4, kernel parameter 1..3),
kind 1 is a pooling operation (width exactly 1, pool parameter 2..3), kind 2
is a dense operation (widths 1..8, parameter exactly 1).  Architectures start
with a convolution; adjacency permits conv→{conv,pool,dense}, pool→{conv,dense}
and dense→dense; depth is bounded by 6. -/
def get_schema (_ : Unit) : Schema where
  numKinds := 3
  domain := fun k =>
    if k = 0 then ⟨1, 4, 1, 3⟩
    else if k = 1 then ⟨1, 1, 2, 3⟩
    else ⟨1, 8, 1, 1⟩
  adj := fun a b =>
    (a == 0 && (b == 0 || b == 1 || b == 2)) ||
    (a == 1 && (b == 0 || b == 2)) ||
    (a == 2 && b == 2)
  startOk := fun k => k == 0
  maxDepth := 6

/-- The single schema instance used for the lifetime of a search run. -/
def theSchema : Schema := get_schema ()

/-- Widen the node at position `i` by one step, leaving every other node and
the depth unchanged. -/
def widenNodes : List Node → Nat → List Node
  | [], _ => []
  | n :: rest, 0 => { n with width := n.width + 1 } :: rest
  | n :: rest, i + 1 => n :: widenNodes rest i

/-- Insert node `m` at position `p` of the chain, leaving every existing node
unchanged. -/
def insertNodeAt : List Node → Nat → Node → List Node
  | l, 0, m => m :: l
  | [], _ + 1, m => [m]
  | n :: rest, p + 1, m => n :: insertNodeAt rest p m

/-- Remove the node at position `i`, reconnecting its neighbours. -/
def removeNodeAt : List Node → Nat → List Node
  | [], _ => []
  | _ :: rest, 0 => rest
  | n :: rest, i + 1 => n :: removeNodeAt rest i

/-- The fresh node inserted for kind `k`: parameters at the low end of the
schema domain for that kind. -/
def freshNode (s : Schema) (k : Nat) : Node :=
  ⟨k, (s.domain k).widthLo, (s.domain k).paramLo⟩

/-- Modelled from the spec: the widening morphisms of the missing module
`uNAS/cnn2d/cnn2d_morphisms.py` — every widenable node widened by one step,
keeping only the schema-valid results. -/
def widenMorphs (s : Schema) (A : Architecture) : List Architecture :=
  ((List.range A.nodes.length).map
    (fun i => Architecture.mk (widenNodes A.nodes i))).filter (validate s)

/-- Modelled from the spec: the insertion morphisms of the missing module
`uNAS/cnn2d/cnn2d_morphisms.py` — every insertable position with every
insertable operation kind, keeping only the schema-valid results. -/
def insertMorphs (s : Schema) (A : Architecture) : List Architecture :=
  ((List.range (A.nodes.length + 1)).flatMap
    (fun p => (List.range s.numKinds).map
      (fun k => Architecture.mk (insertNodeAt A.nodes p (freshNode s k))))).filter
    (validate s)

/-- Modelled from the spec: the removal morphisms of the missing module
`uNAS/cnn2d/cnn2d_morphisms.py` — every removable non-essential node removed,
keeping only the schema-valid results; removing the node of a one-node
architecture (the sole path from source to sink) never yields a valid result,
so such a node is never removable. -/
def removeMorphs (s : Schema) (A : Architecture) : List Architecture :=
  ((List.range A.nodes.length).map
    (fun i => Architecture.mk (removeNodeAt A.nodes i))).filter (validate s)

/-- Modelled from the spec: `produce_all_morphs` of the missing module
`uNAS/cnn2d/cnn2d_morphisms.py` — the deterministic enumeration of all
structurally distinct schema-valid single-step perturbations (widen, insert,
remove) of the given architecture. -/
def produce_all_morphs (A : Architecture) : List Architecture :=
  widenMorphs theSchema A ++ insertMorphs theSchema A ++ removeMorphs theSchema A

/-! ### Structural lemmas about the morphism constructors -/

theorem widenNodes_length (l : List Node) (i : Nat) :
    (widenNodes l i).length = l.length := by
  induction l generalizing i with
  | nil => rfl
  | cons n rest ih => cases i with
    | zero => rfl
    | succ j => simpa [widenNodes] using ih j

theorem widenNodes_eq (l : List Node) (i : Nat) (h : i < l.length) :
    widenNodes l i =
      l.take i ++
        { l.get ⟨i, h⟩ with width := (l.get ⟨i, h⟩).width + 1 } :: l.drop (i + 1) := by
  induction l generalizing i with
  | nil => exact absurd h (Nat.not_lt_zero i)
  | cons n rest ih => cases i with
    | zero => simp [widenNodes]
    | succ j =>
        have hj : j < rest.length := Nat.lt_of_succ_lt_succ h
        simp [widenNodes, ih j hj]

theorem insertNodeAt_length (l : List Node) (p : Nat) (m : Node) :
    (insertNodeAt l p m).length = l.length + 1 := by
  induction l generalizing p with
  | nil => cases p <;> rfl
  | cons n rest ih => cases p with
    | zero => rfl
    | succ q => simpa [insertNodeAt] using ih q

theorem insertNodeAt_eq (l : List Node) (p : Nat) (m : Node) (h : p ≤ l.length) :
    insertNodeAt l p m = l.take p ++ m :: l.drop p := by
  induction l generalizing p with
  | nil =>
      have : p = 0 := Nat.le_zero.mp h
      subst this; rfl
  | cons n rest ih => cases p with
    | zero => rfl
    | succ q =>
        have hq : q ≤ rest.length := Nat.le_of_succ_le_succ h
        simp [insertNodeAt, ih q hq]

theorem removeNodeAt_eq (l : List Node) (i : Nat) (h : i < l.length) :
    removeNodeAt l i = l.take i ++ l.drop (i + 1) := by
  induction l generalizing i with
  | nil => exact absurd h (Nat.not_lt_zero i)
  | cons n rest ih => cases i with
    | zero => rfl
    | succ j =>
        have hj : j < rest.length := Nat.lt_of_succ_lt_succ h
        simp [removeNodeAt, ih j hj]

theorem removeNodeAt_length (l : List Node) (i : Nat) (h : i < l.length) :
    (removeNodeAt l i).length + 1 = l.length := by
  rw [removeNodeAt_eq l i h]
  simp
  omega

/-- Every element of any of the three filtered morphism families is
schema-valid (the explicit `validate` post-condition). -/
theorem validate_of_mem_morphs {A M : Architecture}
    (h : M ∈ produce_all_morphs A) : validate theSchema M = true := by
  unfold produce_all_morphs at h
  rcases List.mem_append.mp h with h1 | h2
  · rcases List.mem_append.mp h1 with hw | hi
    · exact (List.mem_filter.mp hw).2
    · exact (List.mem_filter.mp hi).2
  · exact (List.mem_filter.mp h2).2

/-- Validation forces every node's parameters into the schema domain. -/
theorem nodeOk_of_validate {s : Schema} {A : Architecture}
    (h : validate s A = true) : ∀ n ∈ A.nodes, nodeOk s n = true := by
  unfold validate at h
  cases hA : A.nodes with
  | nil => rw [hA] at h; exact absurd h (by simp)
  | cons a rest =>
      rw [hA] at h
      simp only [Bool.and_eq_true] at h
      intro n hn
      exact List.all_eq_true.mp h.1.2 n hn

/-- A one-node architecture offers no removal candidate: removing its sole
node (the only path from source to sink) never validates. -/
theorem removeMorphs_singleton {A : Architecture}
    (h : A.nodes.length = 1) : removeMorphs theSchema A = [] := by
  obtain ⟨n, hn⟩ := List.length_eq_one.mp h
  unfold removeMorphs
  rw [hn]
  simp [removeNodeAt, validate]

/-- An architecture whose every node is at the top of its width range offers
no widening candidate. -/
theorem widenMorphs_saturated {A : Architecture}
    (hsat : ∀ n ∈ A.nodes, (theSchema.domain n.kind).widthHi ≤ n.width) :
    widenMorphs theSchema A = [] := by
  unfold widenMorphs
  rw [List.filter_eq_nil_iff]
  intro M hM
  rcases List.mem_map.mp hM with ⟨i, hi, hMi⟩
  have hilt : i < A.nodes.length := List.mem_range.mp hi
  intro hval
  have hnodes : M.nodes = widenNodes A.nodes i := by rw [← hMi]
  set n0 := A.nodes.get ⟨i, hilt⟩ with hn0
  have hmem : ({ n0 with width := n0.width + 1 } : Node) ∈ M.nodes := by
    rw [hnodes, widenNodes_eq A.nodes i hilt]
    exact List.mem_append_right _ (List.mem_cons_self _ _)
  have hok := nodeOk_of_validate hval _ hmem
  unfold nodeOk at hok
  simp only [Bool.and_eq_true, decide_eq_true_eq] at hok
  have hhi := hsat n0 (A.nodes.get_mem _ _)
  have : n0.width + 1 ≤ (theSchema.domain n0.kind).widthHi := hok.1.1.2
  omega

/-- Shape analysis of `produce_all_morphs`: every candidate is a widening of
one node (same depth, all other nodes untouched), an insertion at one
position (all existing nodes untouched), or a removal of one node (all other
nodes untouched). -/
theorem morph_shape {A M : Architecture} (h : M ∈ produce_all_morphs A) :
    (M.nodes.length = A.nodes.length ∧ ∃ i, ∃ hi : i < A.nodes.length,
      M.nodes = A.nodes.take i ++
        { A.nodes.get ⟨i, hi⟩ with
            width := (A.nodes.get ⟨i, hi⟩).width + 1 } :: A.nodes.drop (i + 1)) ∨
    (M.nodes.length = A.nodes.length + 1 ∧ ∃ p m, p ≤ A.nodes.length ∧
      M.nodes = A.nodes.take p ++ m :: A.nodes.drop p) ∨
    (M.nodes.length + 1 = A.nodes.length ∧ ∃ i, i < A.nodes.length ∧
      M.nodes = A.nodes.take i ++ A.nodes.drop (i + 1)) := by
  unfold produce_all_morphs at h
  rcases List.mem_append.mp h with h1 | h2
  · rcases List.mem_append.mp h1 with hw | hins
    · left
      have hmap := (List.mem_filter.mp hw).1
      rcases List.mem_map.mp hmap with ⟨i, hi, hMi⟩
      have hilt : i < A.nodes.length := List.mem_range.mp hi
      have hnodes : M.nodes = widenNodes A.nodes i := by rw [← hMi]
      refine ⟨by rw [hnodes, widenNodes_length], i, hilt, ?_⟩
      rw [hnodes, widenNodes_eq A.nodes i hilt]
    · right; left
      have hmap := (List.mem_filter.mp hins).1
      rcases List.mem_flatMap.mp hmap with ⟨p, hp, hMp⟩
      rcases List.mem_map.mp hMp with ⟨k, _, hMk⟩
      have hple : p ≤ A.nodes.length :=
        Nat.lt_succ_iff.mp (List.mem_range.mp hp)
      have hnodes : M.nodes = insertNodeAt A.nodes p (freshNode theSchema k) := by
        rw [← hMk]
      refine ⟨by rw [hnodes, insertNodeAt_length], p, freshNode theSchema k, hple, ?_⟩
      rw [hnodes, insertNodeAt_eq A.nodes p _ hple]
  · right; right
    have hmap := (List.mem_filter.mp h2).1
    rcases List.mem_map.mp hmap with ⟨i, hi, hMi⟩
    have hilt : i < A.nodes.length := List.mem_range.mp hi
    have hnodes : M.nodes = removeNodeAt A.nodes i := by rw [← hMi]
    refine ⟨by rw [hnodes]; exact removeNodeAt_length A.nodes i hilt, i, hilt, ?_⟩
    rw [hnodes, removeNodeAt_eq A.nodes i hilt]

/-! ### Random generator (modelled from the spec, section 4.2) -/

/-- The operation kinds legal as a successor of kind `k` under the schema
adjacency rules. -/
def successors (s : Schema) (k : Nat) : List Nat :=
  (List.range s.numKinds).filter (fun j => s.adj k j)

/-- The operation kinds legal as the first node of an architecture. -/
def startKinds (s : Schema) : List Nat :=
  (List.range s.numKinds).filter (fun k => s.startOk k)

/-- Sample the parameters of a node of kind `k` from the schema domain of
that kind, driven by the random draw `c`: every offered choice lies inside
the legal range, correct by construction. -/
def mkNode (s : Schema) (k c : Nat) : Node :=
  ⟨k, (s.domain k).widthLo + c % ((s.domain k).widthHi + 1 - (s.domain k).widthLo),
      (s.domain k).paramLo + (c / 8) % ((s.domain k).paramHi + 1 - (s.domain k).paramLo)⟩

/-- Modelled from the spec: the growth loop of the missing module
`uNAS/cnn2d/cnn2d_random_generators.py` — repeatedly sample a legal next
operation kind conditioned on the current frontier node and the schema
adjacency rules, sample its parameters from its domain, append, and stop on
fuel exhaustion (schema-defined maximum depth) or on an explicit terminal
draw.  Only legal choices are ever offered, so no retry or filter is needed. -/
def growChain (s : Schema) : Nat → List Nat → Node → List Node
  | 0, _, cur => [cur]
  | _ + 1, [], cur => [cur]
  | fuel + 1, c :: cs, cur =>
      if h : (successors s cur.kind).length = 0 then [cur]
      else if c % 2 = 0 then [cur]
      else
        cur :: growChain s fuel cs
          (mkNode s
            ((successors s cur.kind).get
              ⟨c / 2 % (successors s cur.kind).length, Nat.mod_lt _ (Nat.pos_of_ne_zero h)⟩)
            (c / 4))

/-- Modelled from the spec: `random_arch_2d` of the missing module
`uNAS/cnn2d/cnn2d_random_generators.py`, with the global random state made an
explicit stream of draws.  The first node's kind is sampled from the legal
starting kinds, then the chain grows by legal steps up to the schema maximum
depth. -/
def random_arch_2d (cs : List Nat) : Architecture :=
  match cs with
  | [] => ⟨[mkNode theSchema ((startKinds theSchema).headD 0) 0]⟩
  | c :: rest =>
      ⟨growChain theSchema (theSchema.maxDepth - 1) rest
        (mkNode theSchema
          ((startKinds theSchema).getD (c % (startKinds theSchema).length) 0) (c / 2))⟩

/-! ### Lemmas about the random generator -/

theorem lo_add_mod_le (lo hi c : Nat) (h : lo ≤ hi) :
    lo + c % (hi + 1 - lo) ≤ hi := by
  have hpos : 0 < hi + 1 - lo := by omega
  have := Nat.mod_lt c hpos
  omega

/-- Every node the sampler constructs for a legal kind is inside the schema
domain of that kind. -/
theorem mkNode_ok (k c : Nat) (hk : k < theSchema.numKinds) :
    nodeOk theSchema (mkNode theSchema k c) = true := by
  have hk3 : k < 3 := hk
  unfold nodeOk mkNode
  interval_cases k <;> simp [theSchema, get_schema] <;> omega

theorem mem_successors {s : Schema} {k j : Nat} (h : j ∈ successors s k) :
    j < s.numKinds ∧ s.adj k j = true := by
  have := List.mem_filter.mp h
  exact ⟨List.mem_range.mp this.1, this.2⟩

theorem growChain_cons (s : Schema) (fuel : Nat) (cs : List Nat) (cur : Node) :
    ∃ t, growChain s fuel cs cur = cur :: t := by
  match fuel, cs with
  | 0, _ => exact ⟨[], rfl⟩
  | _ + 1, [] => exact ⟨[], rfl⟩
  | fuel + 1, c :: cs =>
      unfold growChain
      by_cases h1 : (successors s cur.kind).length = 0
      · rw [dif_pos h1]
        exact ⟨[], rfl⟩
      · rw [dif_neg h1]
        by_cases h2 : c % 2 = 0
        · rw [if_pos h2]
          exact ⟨[], rfl⟩
        · rw [if_neg h2]
          exact ⟨_, rfl⟩

theorem growChain_length (s : Schema) (fuel : Nat) (cs : List Nat) (cur : Node) :
    (growChain s fuel cs cur).length ≤ fuel + 1 := by
  induction fuel generalizing cs cur with
  | zero => simp [growChain]
  | succ n ih =>
      cases cs with
      | nil => simp [growChain]
      | cons c rest =>
          unfold growChain
          by_cases h1 : (successors s cur.kind).length = 0
          · rw [dif_pos h1]
            simp
          · rw [dif_neg h1]
            by_cases h2 : c % 2 = 0
            · rw [if_pos h2]
              simp
            · rw [if_neg h2]
              simpa using Nat.succ_le_succ (ih rest _)

theorem growChain_all_ok (s : Schema) (fuel : Nat) (cs : List Nat) (cur : Node)
    (hcur : nodeOk s cur = true)
    (hmk : ∀ k c, k < s.numKinds → nodeOk s (mkNode s k c) = true) :
    (growChain s fuel cs cur).all (nodeOk s) = true := by
  induction fuel generalizing cs cur with
  | zero => simp [growChain, hcur]
  | succ n ih =>
      cases cs with
      | nil => simp [growChain, hcur]
      | cons c rest =>
          unfold growChain
          by_cases h1 : (successors s cur.kind).length = 0
          · rw [dif_pos h1]
            simp [hcur]
          · rw [dif_neg h1]
            by_cases h2 : c % 2 = 0
            · rw [if_pos h2]
              simp [hcur]
            · rw [if_neg h2]
              rw [List.all_cons, hcur, Bool.true_and]
              exact ih rest _ (hmk _ _ (mem_successors (List.get_mem _ _ _)).1)

theorem growChain_chainOk (s : Schema) (fuel : Nat) (cs : List Nat) (cur : Node) :
    chainOk s (growChain s fuel cs cur) = true := by
  induction fuel generalizing cs cur with
  | zero => simp [growChain, chainOk]
  | succ n ih =>
      cases cs with
      | nil => simp [growChain, chainOk]
      | cons c rest =>
          unfold growChain
          by_cases h1 : (successors s cur.kind).length = 0
          · rw [dif_pos h1]
            rfl
          · rw [dif_neg h1]
            by_cases h2 : c % 2 = 0
            · rw [if_pos h2]
              rfl
            · rw [if_neg h2]
              obtain ⟨t, ht⟩ := growChain_cons s n rest
                (mkNode s ((successors s cur.kind).get
                  ⟨c / 2 % (successors s cur.kind).length,
                    Nat.mod_lt _ (Nat.pos_of_ne_zero h1)⟩) (c / 4))
              rw [ht]
              have hadj : s.adj cur.kind
                  ((successors s cur.kind).get
                    ⟨c / 2 % (successors s cur.kind).length,
                      Nat.mod_lt _ (Nat.pos_of_ne_zero h1)⟩) = true :=
                (mem_successors (List.get_mem _ _ _)).2
              show (s.adj cur.kind
                  ((successors s cur.kind).get
                    ⟨c / 2 % (successors s cur.kind).length,
                      Nat.mod_lt _ (Nat.pos_of_ne_zero h1)⟩) &&
                chainOk s (mkNode s
                  ((successors s cur.kind).get
                    ⟨c / 2 % (successors s cur.kind).length,
                      Nat.mod_lt _ (Nat.pos_of_ne_zero h1)⟩) (c / 4) :: t)) = true
              rw [hadj, Bool.true_and, ← ht]
              exact ih rest _

/-- The start-kind list of the concrete schema. -/
theorem startKinds_theSchema : startKinds theSchema = [0] := by decide

/-- Every architecture the random generator produces is schema-valid. -/
theorem random_arch_2d_valid (cs : List Nat) :
    validate theSchema (random_arch_2d cs) = true := by
  cases cs with
  | nil => decide
  | cons c rest =>
      have hk0 : (startKinds theSchema).getD (c % (startKinds theSchema).length) 0 = 0 := by
        rw [startKinds_theSchema]
        simp
      set cur := mkNode theSchema
        ((startKinds theSchema).getD (c % (startKinds theSchema).length) 0) (c / 2) with hcur
      have hnodes : (random_arch_2d (c :: rest)).nodes =
          growChain theSchema (theSchema.maxDepth - 1) rest cur := rfl
      obtain ⟨t, ht⟩ := growChain_cons theSchema (theSchema.maxDepth - 1) rest cur
      have hcurok : nodeOk theSchema cur = true := by
        rw [hcur, hk0]
        exact mkNode_ok 0 (c / 2) (by decide)
      have hstart : theSchema.startOk cur.kind = true := by
        rw [hcur, hk0]
        rfl
      have hlen : (growChain theSchema (theSchema.maxDepth - 1) rest cur).length ≤
          theSchema.maxDepth := by
        have := growChain_length theSchema (theSchema.maxDepth - 1) rest cur
        have hmd : 1 ≤ theSchema.maxDepth := by decide
        omega
      have hall := growChain_all_ok theSchema (theSchema.maxDepth - 1) rest cur hcurok
        (fun k cc hk => mkNode_ok k cc hk)
      have hchain := growChain_chainOk theSchema (theSchema.maxDepth - 1) rest cur
      have harch : random_arch_2d (c :: rest) = ⟨cur :: t⟩ := by
        have hr : random_arch_2d (c :: rest) =
            ⟨growChain theSchema (theSchema.maxDepth - 1) rest cur⟩ := rfl
        rw [hr, ht]
      rw [harch]
      rw [ht] at hall hchain hlen
      show (theSchema.startOk cur.kind &&
        decide ((cur :: t).length ≤ theSchema.maxDepth) &&
        (cur :: t).all (nodeOk theSchema) && chainOk theSchema (cur :: t)) = true
      simp only [Bool.and_eq_true, decide_eq_true_eq]
      exact ⟨⟨⟨hstart, hlen⟩, hall⟩, hchain⟩

/-! ### Claim theorems about the morphism and random generators -/

/-- C1: every candidate returned by `produce_all_morphs` satisfies `validate`
(the explicit post-condition); no candidate removes the sole path between
source and sink, so a minimal one-node architecture (source = sink) yields no
removal candidate, and when its node is width-saturated every candidate is
insertion-based. -/
theorem morphs_validate_and_no_singleton_removal (A : Architecture) :
    (∀ M ∈ produce_all_morphs A, validate theSchema M = true) ∧
    (A.nodes.length = 1 →
      removeMorphs theSchema A = [] ∧
      ((∀ n ∈ A.nodes, (theSchema.domain n.kind).widthHi ≤ n.width) →
        produce_all_morphs A = insertMorphs theSchema A)) := by
  refine ⟨fun M hM => validate_of_mem_morphs hM,
    fun h1 => ⟨removeMorphs_singleton h1, fun hsat => ?_⟩⟩
  unfold produce_all_morphs
  rw [removeMorphs_singleton h1, widenMorphs_saturated hsat]
  simp

/-- Witness for C1: on the concrete saturated one-node architecture, the
removal family is empty and the full menu is exactly the insertion family. -/
theorem morphs_validate_and_no_singleton_removal_holds :
    removeMorphs theSchema ⟨[⟨0, 4, 1⟩]⟩ = [] ∧
    produce_all_morphs ⟨[⟨0, 4, 1⟩]⟩ = insertMorphs theSchema ⟨[⟨0, 4, 1⟩]⟩ := by
  have h := (morphs_validate_and_no_singleton_removal ⟨[⟨0, 4, 1⟩]⟩).2 (by decide)
  exact ⟨h.1, h.2 (by decide)⟩

/-- C2: `produce_all_morphs` is a pure, deterministic function of its input:
equal architectures receive equal candidate lists. -/
theorem produce_morphs_deterministic (A1 A2 : Architecture) (h : A1 = A2) :
    produce_all_morphs A1 = produce_all_morphs A2 := by
  rw [h]

/-- Witness for C2 at a concrete architecture. -/
theorem produce_morphs_deterministic_holds :
    produce_all_morphs ⟨[⟨0, 1, 1⟩]⟩ = produce_all_morphs ⟨[⟨0, 1, 1⟩]⟩ :=
  produce_morphs_deterministic ⟨[⟨0, 1, 1⟩]⟩ ⟨[⟨0, 1, 1⟩]⟩ rfl

/-- C5: every architecture returned by the random generator is schema-valid,
and generation terminates within the schema's bounded depth for every stream
of random draws (the generator is a total function of the draw stream and
only ever offers legal choices, with no retry loop). -/
theorem random_architecture_valid (cs : List Nat) :
    validate theSchema (random_arch_2d cs) = true ∧
    (random_arch_2d cs).nodes.length ≤ theSchema.maxDepth ∧
    (random_arch_2d cs).nodes ≠ [] := by
  refine ⟨random_arch_2d_valid cs, ?_, ?_⟩
  · have h := random_arch_2d_valid cs
    unfold validate at h
    cases hA : (random_arch_2d cs).nodes with
    | nil => rw [hA] at h; exact absurd h (by simp)
    | cons a rest =>
        rw [hA] at h
        simp only [Bool.and_eq_true, decide_eq_true_eq] at h
        exact h.1.1.2
  · have h := random_arch_2d_valid cs
    unfold validate at h
    cases hA : (random_arch_2d cs).nodes with
    | nil => rw [hA] at h; exact absurd h (by simp)
    | cons a rest => simp

/-- C8: every candidate differs from its parent in exactly one structural
dimension: a widening changes one node's width and keeps the depth, an
insertion adds one node and keeps every existing node, a removal deletes one
node and keeps every other node; and every candidate validates. -/
theorem morphs_single_dimension (A M : Architecture)
    (h : M ∈ produce_all_morphs A) :
    validate theSchema M = true ∧
    ((M.nodes.length = A.nodes.length ∧ ∃ i, ∃ hi : i < A.nodes.length,
        M.nodes = A.nodes.take i ++
          { A.nodes.get ⟨i, hi⟩ with
              width := (A.nodes.get ⟨i, hi⟩).width + 1 } :: A.nodes.drop (i + 1)) ∨
     (M.nodes.length = A.nodes.length + 1 ∧ ∃ p m, p ≤ A.nodes.length ∧
        M.nodes = A.nodes.take p ++ m :: A.nodes.drop p) ∨
     (M.nodes.length + 1 = A.nodes.length ∧ ∃ i, i < A.nodes.length ∧
        M.nodes = A.nodes.take i ++ A.nodes.drop (i + 1))) :=
  ⟨validate_of_mem_morphs h, morph_shape h⟩

/-- Witness for C8: a concrete widened candidate of a two-node architecture
validates, via the claim theorem applied at that input. -/
theorem morphs_single_dimension_holds :
    validate theSchema ⟨[⟨0, 2, 1⟩, ⟨2, 1, 1⟩]⟩ = true :=
  (morphs_single_dimension ⟨[⟨0, 1, 1⟩, ⟨2, 1, 1⟩]⟩ ⟨[⟨0, 2, 1⟩, ⟨2, 1, 1⟩]⟩
    (by decide)).1

/-! ### Bound policy (modelled from the spec, section 4.4; the concrete
threshold values are those of `get_example_1dcnn_config` in
`uNAS/examples.py`) -/

/-- The four measured metrics of an evaluated candidate: prediction error
(a fraction in `[0,1]`, modelled as a rational), peak memory, model size and
multiply-accumulate count. -/
structure Metrics where
  error : ℚ
  peak_mem : ℕ
  model_size : ℕ
  macs : ℕ
deriving DecidableEq, Repr

/-- Modelled from the spec: `BoundConfig` of the missing module
`uNAS/config.py` — four independent upper thresholds, exactly the fields
passed in `uNAS/examples.py`. -/
structure BoundConfig where
  error_bound : ℚ
  peak_mem_bound : ℕ
  model_size_bound : ℕ
  mac_bound : ℕ
deriving DecidableEq, Repr

/-- An individual is feasible iff all four measured metrics are at most
their bound (the conjunction of four independent comparisons). -/
def feasible (m : Metrics) (b : BoundConfig) : Bool :=
  decide (m.error ≤ b.error_bound) &&
  decide (m.peak_mem ≤ b.peak_mem_bound) &&
  decide (m.model_size ≤ b.model_size_bound) &&
  decide (m.macs ≤ b.mac_bound)

/-- Fraction by which a metric exceeds its upper bound. -/
def excessFrac (metric bound : ℚ) : ℚ := (metric - bound) / bound

/-- The magnitude of the worst bound violation, as the largest fraction by
which any of the four metrics exceeds its bound. -/
def worstViolation (m : Metrics) (b : BoundConfig) : ℚ :=
  max (max (excessFrac m.error b.error_bound)
           (excessFrac (m.peak_mem : ℚ) (b.peak_mem_bound : ℚ)))
      (max (excessFrac (m.model_size : ℚ) (b.model_size_bound : ℚ))
           (excessFrac (m.macs : ℚ) (b.mac_bound : ℚ)))

/-- Modelled from the spec: `evaluate_feasibility(metrics, bound_config)` of
the missing bound-policy module.  Returns the feasibility verdict together
with the ranking fitness: the measured error when feasible, and a penalty
strictly worse than any feasible fitness, scaled by the worst violation
fraction, when infeasible. -/
def evaluate_feasibility (m : Metrics) (b : BoundConfig) : Bool × ℚ :=
  if feasible m b then (true, m.error) else (false, 1 + worstViolation m b)

/-- Three-way comparison of two booleans, `true` (feasible) ranking first. -/
def cmpB (p q : Bool) : Ordering :=
  if p = q then .eq else if p = true then .lt else .gt

/-- Three-way comparison in a linear order. -/
def cmpv {α : Type} [LinearOrder α] (a b : α) : Ordering :=
  if a < b then .lt else if b < a then .gt else .eq

/-- Modelled from the spec: the total ranking induced by the bound policy —
feasible individuals outrank infeasible ones, then lower fitness wins, and
ties break by lowest model size, then lowest MAC count, then lowest peak
memory, then lowest raw error. -/
def rankOrder (b : BoundConfig) (x y : Metrics) : Ordering :=
  (cmpB (evaluate_feasibility x b).1 (evaluate_feasibility y b).1).then
    ((cmpv (evaluate_feasibility x b).2 (evaluate_feasibility y b).2).then
      ((cmpv x.model_size y.model_size).then
        ((cmpv x.macs y.macs).then
          ((cmpv x.peak_mem y.peak_mem).then
            (cmpv x.error y.error)))))

/-- Holds when `x` ranks strictly above `y` under the bound policy. -/
def ranksAbove (b : BoundConfig) (x y : Metrics) : Bool :=
  rankOrder b x y == Ordering.lt

/-! ### Lemmas about the bound policy -/

theorem then_eq_eq (a b : Ordering) : a.then b = .eq ↔ a = .eq ∧ b = .eq := by
  cases a <;> cases b <;> simp [Ordering.then]

theorem then_swap (a b : Ordering) : (a.then b).swap = a.swap.then b.swap := by
  cases a <;> cases b <;> rfl

theorem cmpB_swap (p q : Bool) : cmpB q p = (cmpB p q).swap := by
  cases p <;> cases q <;> rfl

theorem cmpB_eq_iff (p q : Bool) : cmpB p q = .eq ↔ p = q := by
  cases p <;> cases q <;> simp [cmpB]

theorem cmpv_swap {α : Type} [LinearOrder α] (a b : α) :
    cmpv b a = (cmpv a b).swap := by
  unfold cmpv
  rcases lt_trichotomy a b with h | h | h
  · simp [h, asymm h, Ordering.swap]
  · simp [h, lt_irrefl, Ordering.swap]
  · simp [h, asymm h, Ordering.swap]

theorem cmpv_eq_iff {α : Type} [LinearOrder α] (a b : α) :
    cmpv a b = .eq ↔ a = b := by
  unfold cmpv
  rcases lt_trichotomy a b with h | h | h
  · simp [h, ne_of_lt h]
  · simp [h, lt_irrefl]
  · simp [h, asymm h, Ne.symm (ne_of_lt h)]

theorem cmpv_lt_of_lt {α : Type} [LinearOrder α] {a b : α} (h : a < b) :
    cmpv a b = .lt := by
  simp [cmpv, h]

theorem rankOrder_swap (b : BoundConfig) (x y : Metrics) :
    rankOrder b y x = (rankOrder b x y).swap := by
  unfold rankOrder
  simp only [then_swap, ← cmpB_swap, ← cmpv_swap]

theorem eq_of_rankOrder_eq {b : BoundConfig} {x y : Metrics}
    (h : rankOrder b x y = .eq) : x = y := by
  unfold rankOrder at h
  simp only [then_eq_eq] at h
  obtain ⟨-, -, hms, hmacs, hpm, herr⟩ := h
  rw [cmpv_eq_iff] at hms hmacs hpm herr
  cases x
  cases y
  simp only [Metrics.mk.injEq]
  exact ⟨herr, hpm, hms, hmacs⟩

theorem eval_feasibility_fst (m : Metrics) (b : BoundConfig) :
    (evaluate_feasibility m b).1 = feasible m b := by
  unfold evaluate_feasibility
  by_cases h : feasible m b <;> simp [h]

theorem eval_feasibility_snd_feasible {m : Metrics} {b : BoundConfig}
    (h : feasible m b = true) : (evaluate_feasibility m b).2 = m.error := by
  unfold evaluate_feasibility
  rw [h]
  rfl

theorem eval_feasibility_snd_infeasible {m : Metrics} {b : BoundConfig}
    (h : feasible m b = false) :
    (evaluate_feasibility m b).2 = 1 + worstViolation m b := by
  unfold evaluate_feasibility
  rw [h]
  simp

/-- An infeasible individual violates at least one of the four bounds. -/
theorem exists_violation {m : Metrics} {b : BoundConfig}
    (h : feasible m b = false) :
    b.error_bound < m.error ∨ b.peak_mem_bound < m.peak_mem ∨
    b.model_size_bound < m.model_size ∨ b.mac_bound < m.macs := by
  by_contra hcon
  push_neg at hcon
  obtain ⟨h1, h2, h3, h4⟩ := hcon
  have : feasible m b = true := by
    unfold feasible
    simp only [Bool.and_eq_true, decide_eq_true_eq]
    exact ⟨⟨⟨h1, h2⟩, h3⟩, h4⟩
  rw [this] at h
  exact absurd h (by simp)

/-- With positive bounds, the worst violation fraction of an infeasible
individual is strictly positive. -/
theorem worstViolation_pos {m : Metrics} {b : BoundConfig}
    (h : feasible m b = false)
    (he : 0 < b.error_bound) (hp : 0 < b.peak_mem_bound)
    (hs : 0 < b.model_size_bound) (hc : 0 < b.mac_bound) :
    0 < worstViolation m b := by
  rcases exists_violation h with hv | hv | hv | hv
  · have hfrac : 0 < excessFrac m.error b.error_bound :=
      div_pos (by linarith) he
    exact lt_of_lt_of_le hfrac
      (le_trans (le_max_left _ _) (le_max_left _ _))
  · have hb : (0 : ℚ) < (b.peak_mem_bound : ℚ) := by exact_mod_cast hp
    have hm : (b.peak_mem_bound : ℚ) < (m.peak_mem : ℚ) := by exact_mod_cast hv
    have hfrac : 0 < excessFrac (m.peak_mem : ℚ) (b.peak_mem_bound : ℚ) :=
      div_pos (by linarith) hb
    exact lt_of_lt_of_le hfrac
      (le_trans (le_max_right _ _) (le_max_left _ _))
  · have hb : (0 : ℚ) < (b.model_size_bound : ℚ) := by exact_mod_cast hs
    have hm : (b.model_size_bound : ℚ) < (m.model_size : ℚ) := by exact_mod_cast hv
    have hfrac : 0 < excessFrac (m.model_size : ℚ) (b.model_size_bound : ℚ) :=
      div_pos (by linarith) hb
    exact lt_of_lt_of_le hfrac
      (le_trans (le_max_left _ _) (le_max_right _ _))
  · have hb : (0 : ℚ) < (b.mac_bound : ℚ) := by exact_mod_cast hc
    have hm : (b.mac_bound : ℚ) < (m.macs : ℚ) := by exact_mod_cast hv
    have hfrac : 0 < excessFrac (m.macs : ℚ) (b.mac_bound : ℚ) :=
      div_pos (by linarith) hb
    exact lt_of_lt_of_le hfrac
      (le_trans (le_max_right _ _) (le_max_right _ _))

/-- A feasible individual always ranks strictly above an infeasible one. -/
theorem feasible_ranksAbove_infeasible {b : BoundConfig} {x y : Metrics}
    (hx : feasible x b = true) (hy : feasible y b = false) :
    ranksAbove b x y = true := by
  unfold ranksAbove rankOrder
  rw [eval_feasibility_fst, eval_feasibility_fst, hx, hy]
  rfl

theorem cmpv_self {α : Type} [LinearOrder α] (a : α) : cmpv a a = .eq := by
  simp [cmpv]

theorem ranksAbove_iff (b : BoundConfig) (x y : Metrics) :
    ranksAbove b x y = true ↔ rankOrder b x y = Ordering.lt := by
  unfold ranksAbove
  cases rankOrder b x y <;> decide

theorem error_le_of_feasible {m : Metrics} {b : BoundConfig}
    (h : feasible m b = true) : m.error ≤ b.error_bound := by
  simp only [feasible, Bool.and_eq_true, decide_eq_true_eq] at h
  exact h.1.1.1

/-- The scenario's first individual is feasible under the example bounds. -/
theorem scenario_feasible :
    feasible ⟨3/10, 15000, 40000, 25000⟩ ⟨2/5, 20000, 50000, 30000⟩ = true := by
  simp only [feasible, Bool.and_eq_true, decide_eq_true_eq]
  norm_num

/-- The scenario's second individual violates the peak-memory bound. -/
theorem scenario_infeasible :
    feasible ⟨1/5, 25000, 40000, 25000⟩ ⟨2/5, 20000, 50000, 30000⟩ = false := by
  cases hf : feasible ⟨1/5, 25000, 40000, 25000⟩ ⟨2/5, 20000, 50000, 30000⟩ with
  | false => rfl
  | true =>
      exfalso
      simp only [feasible, Bool.and_eq_true, decide_eq_true_eq] at hf
      exact absurd hf.1.1.2 (by norm_num)

/-- C3: feasibility is exactly the conjunction of the four comparisons, and
with the example bounds of `get_example_1dcnn_config` the metrics
(0.3, 15000, 40000, 25000) are feasible with fitness 0.3, while
(0.2, 25000, 40000, 25000) are infeasible and rank below the first. -/
theorem feasibility_conjunction_and_scenario :
    (∀ (m : Metrics) (b : BoundConfig),
      (evaluate_feasibility m b).1 = true ↔
        (m.error ≤ b.error_bound ∧ m.peak_mem ≤ b.peak_mem_bound ∧
         m.model_size ≤ b.model_size_bound ∧ m.macs ≤ b.mac_bound)) ∧
    evaluate_feasibility ⟨3/10, 15000, 40000, 25000⟩ ⟨2/5, 20000, 50000, 30000⟩ =
      (true, 3/10) ∧
    (evaluate_feasibility ⟨1/5, 25000, 40000, 25000⟩
      ⟨2/5, 20000, 50000, 30000⟩).1 = false ∧
    ranksAbove ⟨2/5, 20000, 50000, 30000⟩ ⟨3/10, 15000, 40000, 25000⟩
      ⟨1/5, 25000, 40000, 25000⟩ = true := by
  refine ⟨?_, ?_, ?_, ?_⟩
  · intro m b
    rw [eval_feasibility_fst]
    simp only [feasible, Bool.and_eq_true, decide_eq_true_eq]
    tauto
  · unfold evaluate_feasibility
    rw [scenario_feasible]
    rfl
  · rw [eval_feasibility_fst, scenario_infeasible]
  · exact feasible_ranksAbove_infeasible scenario_feasible scenario_infeasible

/-- C4: the bound-policy fitness induces a total deterministic ranking — a
feasible individual's fitness is its measured error, ties break by lowest
model size, then MAC count, then peak memory; an infeasible individual's
fitness is the penalty `1 + worst violation fraction`, strictly worse than
every feasible fitness, strictly monotone in the worst violation, and any two
distinct individuals are strictly ordered one way only. -/
theorem bound_policy_total_ranking (b : BoundConfig) (x y : Metrics)
    (he : 0 < b.error_bound) (he1 : b.error_bound ≤ 1)
    (hp : 0 < b.peak_mem_bound) (hs : 0 < b.model_size_bound)
    (hc : 0 < b.mac_bound) :
    (feasible x b = true → (evaluate_feasibility x b).2 = x.error) ∧
    (feasible x b = true → feasible y b = true → x.error = y.error →
      x.model_size < y.model_size → ranksAbove b x y = true) ∧
    (feasible x b = false →
      (evaluate_feasibility x b).2 = 1 + worstViolation x b ∧
      1 < (evaluate_feasibility x b).2) ∧
    (feasible x b = false → feasible y b = true →
      (evaluate_feasibility y b).2 < (evaluate_feasibility x b).2 ∧
      ranksAbove b y x = true) ∧
    (feasible x b = false → feasible y b = false →
      worstViolation x b < worstViolation y b →
      (evaluate_feasibility x b).2 < (evaluate_feasibility y b).2) ∧
    (ranksAbove b x y = true ∨ ranksAbove b y x = true ∨ x = y) ∧
    ¬(ranksAbove b x y = true ∧ ranksAbove b y x = true) := by
  refine ⟨fun hx => eval_feasibility_snd_feasible hx, ?_, ?_, ?_, ?_, ?_, ?_⟩
  · intro hx hy herr hms
    unfold ranksAbove rankOrder
    rw [eval_feasibility_fst, eval_feasibility_fst, hx, hy,
      eval_feasibility_snd_feasible hx, eval_feasibility_snd_feasible hy, herr,
      cmpv_self, cmpv_lt_of_lt hms]
    rfl
  · intro hx
    have hwv := worstViolation_pos hx he hp hs hc
    refine ⟨eval_feasibility_snd_infeasible hx, ?_⟩
    rw [eval_feasibility_snd_infeasible hx]
    linarith
  · intro hx hy
    have hwv := worstViolation_pos hx he hp hs hc
    have hyfit : (evaluate_feasibility y b).2 = y.error :=
      eval_feasibility_snd_feasible hy
    have hxe := error_le_of_feasible hy
    constructor
    · rw [hyfit, eval_feasibility_snd_infeasible hx]
      linarith
    · exact feasible_ranksAbove_infeasible hy hx
  · intro hx hy hlt
    rw [eval_feasibility_snd_infeasible hx, eval_feasibility_snd_infeasible hy]
    linarith
  · cases hro : rankOrder b x y with
    | lt =>
        left
        unfold ranksAbove
        rw [hro]
        rfl
    | eq => exact Or.inr (Or.inr (eq_of_rankOrder_eq hro))
    | gt =>
        right
        left
        unfold ranksAbove
        rw [rankOrder_swap, hro]
        rfl
  · rintro ⟨h1, h2⟩
    rw [ranksAbove_iff] at h1 h2
    rw [rankOrder_swap, h1] at h2
    exact absurd h2 (by simp [Ordering.swap])

/-- Witness for C4 at the example bounds: the feasible scenario individual's
fitness is strictly better than the infeasible one's, and it ranks above. -/
theorem bound_policy_total_ranking_holds :
    (evaluate_feasibility ⟨3/10, 15000, 40000, 25000⟩
        ⟨2/5, 20000, 50000, 30000⟩).2 <
      (evaluate_feasibility ⟨1/5, 25000, 40000, 25000⟩
        ⟨2/5, 20000, 50000, 30000⟩).2 ∧
    ranksAbove ⟨2/5, 20000, 50000, 30000⟩ ⟨3/10, 15000, 40000, 25000⟩
      ⟨1/5, 25000, 40000, 25000⟩ = true :=
  (bound_policy_total_ranking ⟨2/5, 20000, 50000, 30000⟩
    ⟨1/5, 25000, 40000, 25000⟩ ⟨3/10, 15000, 40000, 25000⟩
    (by norm_num) (by norm_num) (by norm_num) (by norm_num)
    (by norm_num)).2.2.2.1 scenario_infeasible scenario_feasible

/-! ### Aging evolutionary engine (modelled from the spec, section 4.5) -/

/-- Modelled from the spec: an individual of the aging-evolutionary engine —
an architecture, its measured metrics once evaluated, the derived scalar
fitness, and the number of rounds survived. -/
structure Individual where
  arch : Architecture
  metrics : Option Metrics
  fitness : ℚ
  age : ℕ
deriving DecidableEq, Repr

/-- Increment the age of every individual by one round. -/
def ageAll (pop : List Individual) : List Individual :=
  pop.map (fun i => { i with age := i.age + 1 })

/-- Of two individuals, the one with the worse (larger) fitness, keeping the
first on a tie so the choice is deterministic. -/
def worseOf (x y : Individual) : Individual :=
  if x.fitness < y.fitness then y else x

/-- The worst-fitness individual among `x :: l`. -/
def worstOf (x : Individual) (l : List Individual) : Individual :=
  l.foldl worseOf x

/-- The individuals strictly older than the configured maximum age. -/
def overAged (maxAge : ℕ) (pop : List Individual) : List Individual :=
  pop.filter (fun i => decide (maxAge < i.age))

/-- Modelled from the spec: the cull rule — among individuals older than the
maximum age, drop the one with worst fitness; if none exceed the maximum age,
drop the globally worst-fitness individual. -/
def cullVictim (maxAge : ℕ) (pop : List Individual) : Option Individual :=
  match overAged maxAge pop with
  | o :: os => some (worstOf o os)
  | [] =>
      match pop with
      | [] => none
      | p :: ps => some (worstOf p ps)

/-- Remove the cull victim from the population. -/
def cull (maxAge : ℕ) (pop : List Individual) : List Individual :=
  match cullVictim maxAge pop with
  | none => pop
  | some v => pop.erase v

/-- Modelled from the spec: the age-and-cull step of one engine round —
increment every age, insert the newly scored individual, then remove exactly
one individual by the cull rule. -/
def insertAndCull (maxAge : ℕ) (pop : List Individual) (child : Individual) :
    List Individual :=
  cull maxAge (ageAll pop ++ [child])

/-! ### Lemmas about the cull step -/

theorem worstOf_mem (x : Individual) (l : List Individual) :
    worstOf x l ∈ x :: l := by
  induction l generalizing x with
  | nil => exact List.mem_cons_self x []
  | cons a t ih =>
      have h := ih (worseOf x a)
      have hxa : worseOf x a = x ∨ worseOf x a = a := by
        unfold worseOf
        by_cases hf : x.fitness < a.fitness
        · exact Or.inr (if_pos hf)
        · exact Or.inl (if_neg hf)
      have hstep : worstOf x (a :: t) = worstOf (worseOf x a) t := rfl
      rw [hstep]
      rcases List.mem_cons.mp h with h1 | h1
      · rcases hxa with h2 | h2 <;> rw [h1, h2]
        · exact List.mem_cons_self _ _
        · exact List.mem_cons_of_mem _ (List.mem_cons_self _ _)
      · exact List.mem_cons_of_mem _ (List.mem_cons_of_mem _ h1)

theorem le_worstOf (x : Individual) (l : List Individual) :
    ∀ y ∈ x :: l, y.fitness ≤ (worstOf x l).fitness := by
  induction l generalizing x with
  | nil =>
      intro y hy
      rcases List.mem_cons.mp hy with h | h
      · rw [h]
        exact le_refl _
      · exact absurd h (List.not_mem_nil y)
  | cons a t ih =>
      intro y hy
      have hstep : worstOf x (a :: t) = worstOf (worseOf x a) t := rfl
      rw [hstep]
      have hx : x.fitness ≤ (worseOf x a).fitness := by
        unfold worseOf
        by_cases hf : x.fitness < a.fitness
        · rw [if_pos hf]; exact le_of_lt hf
        · rw [if_neg hf]
      have ha : a.fitness ≤ (worseOf x a).fitness := by
        unfold worseOf
        by_cases hf : x.fitness < a.fitness
        · rw [if_pos hf]
        · rw [if_neg hf]; exact not_lt.mp hf
      rcases List.mem_cons.mp hy with h | h
      · rw [h]
        exact le_trans hx (ih (worseOf x a) _ (List.mem_cons_self _ _))
      · rcases List.mem_cons.mp h with h2 | h2
        · rw [h2]
          exact le_trans ha (ih (worseOf x a) _ (List.mem_cons_self _ _))
        · exact ih (worseOf x a) y (List.mem_cons_of_mem _ h2)

theorem cullVictim_spec (maxAge : ℕ) (pop : List Individual) (hne : pop ≠ []) :
    ∃ v, cullVictim maxAge pop = some v ∧ v ∈ pop ∧
      (overAged maxAge pop ≠ [] →
        v ∈ overAged maxAge pop ∧
        ∀ i ∈ overAged maxAge pop, i.fitness ≤ v.fitness) ∧
      (overAged maxAge pop = [] → ∀ i ∈ pop, i.fitness ≤ v.fitness) := by
  unfold cullVictim
  cases ho : overAged maxAge pop with
  | cons o os =>
      refine ⟨worstOf o os, rfl, ?_, ?_, ?_⟩
      · have hm : worstOf o os ∈ overAged maxAge pop := by
          rw [ho]; exact worstOf_mem o os
        exact List.mem_of_mem_filter hm
      · intro _
        exact ⟨worstOf_mem o os, fun i hi => le_worstOf o os i hi⟩
      · intro h
        exact absurd h (by simp)
  | nil =>
      cases hp : pop with
      | nil => exact absurd hp hne
      | cons p ps =>
          refine ⟨worstOf p ps, rfl, ?_, ?_, ?_⟩
          · exact worstOf_mem p ps
          · intro h
            exact absurd rfl h
          · intro _ i hi
            exact le_worstOf p ps i hi

theorem cull_spec (maxAge : ℕ) (pop : List Individual) (hne : pop ≠ []) :
    ∃ v, cullVictim maxAge pop = some v ∧ cull maxAge pop = pop.erase v ∧
      (cull maxAge pop).length + 1 = pop.length := by
  obtain ⟨v, hv, hmem, -, -⟩ := cullVictim_spec maxAge pop hne
  refine ⟨v, hv, ?_, ?_⟩
  · unfold cull
    rw [hv]
  · unfold cull
    rw [hv]
    show (pop.erase v).length + 1 = pop.length
    have hlen := List.length_erase_of_mem hmem
    have hpos : 0 < pop.length := List.length_pos.mpr hne
    omega

/-- C6: with the population at size `P`, a completed round makes the size
`P + 1` by insertion and exactly `P` again after the cull, and the culled
individual is the worst-fitness one among those older than the maximum age,
or the globally worst-fitness one when none exceed the maximum age. -/
theorem population_size_after_round (P maxAge : ℕ) (pop : List Individual)
    (child : Individual) (hP : pop.length = P) :
    (ageAll pop ++ [child]).length = P + 1 ∧
    (insertAndCull maxAge pop child).length = P ∧
    ∃ v, cullVictim maxAge (ageAll pop ++ [child]) = some v ∧
      insertAndCull maxAge pop child = (ageAll pop ++ [child]).erase v ∧
      (overAged maxAge (ageAll pop ++ [child]) ≠ [] →
        v ∈ overAged maxAge (ageAll pop ++ [child]) ∧
        ∀ i ∈ overAged maxAge (ageAll pop ++ [child]), i.fitness ≤ v.fitness) ∧
      (overAged maxAge (ageAll pop ++ [child]) = [] →
        ∀ i ∈ ageAll pop ++ [child], i.fitness ≤ v.fitness) := by
  have hne : ageAll pop ++ [child] ≠ [] := by simp
  have hlen : (ageAll pop ++ [child]).length = P + 1 := by
    simp [ageAll, hP]
  obtain ⟨v, hv, hmem, hover, hglob⟩ := cullVictim_spec maxAge _ hne
  obtain ⟨v', hv', hcull, hcl⟩ := cull_spec maxAge _ hne
  have hvv : v' = v := by
    rw [hv] at hv'
    exact (Option.some.inj hv').symm
  refine ⟨hlen, ?_, v, hv, ?_, hover, hglob⟩
  · unfold insertAndCull
    omega
  · unfold insertAndCull
    rw [hcull, hvv]

/-- Witness for C6 on a concrete population of size 2 with maximum age 5. -/
theorem population_size_after_round_holds :
    (insertAndCull 5
      [⟨⟨[⟨0, 1, 1⟩]⟩, none, 1, 3⟩, ⟨⟨[⟨0, 2, 1⟩]⟩, none, 2, 7⟩]
      ⟨⟨[⟨0, 3, 1⟩]⟩, none, 3, 0⟩).length = 2 :=
  (population_size_after_round 2 5
    [⟨⟨[⟨0, 1, 1⟩]⟩, none, 1, 3⟩, ⟨⟨[⟨0, 2, 1⟩]⟩, none, 2, 7⟩]
    ⟨⟨[⟨0, 3, 1⟩]⟩, none, 3, 0⟩ rfl).2.1

/-! ### Checkpoint manager (modelled from the spec, sections 4.6 and 6) -/

/-- Modelled from the spec: `CheckpointState` — the round index, the full
population snapshot, the explicit random-stream state, and the
best-individual-so-far record. -/
structure SearchState where
  round : ℕ
  population : List Individual
  rngState : List ℕ
  best : Option Individual
deriving DecidableEq, Repr

/-- The serialized checkpoint payload: a tree of naturals, the logical file
contents written by the checkpoint manager. -/
inductive SData where
  | num : ℕ → SData
  | seq : List SData → SData

def encodeInt (i : ℤ) : SData :=
  if i < 0 then .seq [.num 1, .num (-i).toNat] else .seq [.num 0, .num i.toNat]

def decodeInt : SData → Option ℤ
  | .seq [.num 1, .num n] => some (-(n : ℤ))
  | .seq [.num 0, .num n] => some (n : ℤ)
  | _ => none

def encodeRat (q : ℚ) : SData := .seq [encodeInt q.num, .num q.den]

def decodeRat : SData → Option ℚ
  | .seq [i, .num d] =>
      match decodeInt i with
      | some n => some ((n : ℚ) / (d : ℚ))
      | none => none
  | _ => none

def encodeNode (n : Node) : SData := .seq [.num n.kind, .num n.width, .num n.param]

def decodeNode : SData → Option Node
  | .seq [.num k, .num w, .num p] => some ⟨k, w, p⟩
  | _ => none

/-- Decode a list of payloads, failing if any element fails. -/
def decodeListWith {α : Type} (f : SData → Option α) : List SData → Option (List α)
  | [] => some []
  | x :: xs =>
      match f x, decodeListWith f xs with
      | some a, some as => some (a :: as)
      | _, _ => none

def encodeArch (A : Architecture) : SData := .seq (A.nodes.map encodeNode)

def decodeArch : SData → Option Architecture
  | .seq l => (decodeListWith decodeNode l).map Architecture.mk
  | _ => none

def encodeMetrics (m : Metrics) : SData :=
  .seq [encodeRat m.error, .num m.peak_mem, .num m.model_size, .num m.macs]

def decodeMetrics : SData → Option Metrics
  | .seq [e, .num pm, .num ms, .num mc] =>
      match decodeRat e with
      | some q => some ⟨q, pm, ms, mc⟩
      | none => none
  | _ => none

def encodeOptMetrics : Option Metrics → SData
  | none => .num 0
  | some m => .seq [encodeMetrics m]

def decodeOptMetrics : SData → Option (Option Metrics)
  | .num 0 => some none
  | .seq [x] =>
      match decodeMetrics x with
      | some m => some (some m)
      | none => none
  | _ => none

def encodeIndividual (i : Individual) : SData :=
  .seq [encodeArch i.arch, encodeOptMetrics i.metrics, encodeRat i.fitness,
    .num i.age]

def decodeIndividual : SData → Option Individual
  | .seq [a, m, f, .num age] =>
      match decodeArch a, decodeOptMetrics m, decodeRat f with
      | some arch, some met, some fit => some ⟨arch, met, fit, age⟩
      | _, _, _ => none
  | _ => none

def encodeOptIndividual : Option Individual → SData
  | none => .num 0
  | some i => .seq [encodeIndividual i]

def decodeOptIndividual : SData → Option (Option Individual)
  | .num 0 => some none
  | .seq [x] =>
      match decodeIndividual x with
      | some i => some (some i)
      | none => none
  | _ => none

/-- Modelled from the spec: `save(state)` of the missing checkpoint-manager
module — serialize the full logical search state. -/
def save (st : SearchState) : SData :=
  .seq [.num st.round, .seq (st.population.map encodeIndividual),
    .seq (st.rngState.map SData.num), encodeOptIndividual st.best]

/-- Modelled from the spec: `load(payload)` of the missing checkpoint-manager
module — deserialize a search state, failing on a malformed payload. -/
def load (d : SData) : Option SearchState :=
  match d with
  | .seq [.num r, .seq pop, .seq rng, best] =>
      match decodeListWith decodeIndividual pop,
          decodeListWith (fun x => match x with | .num n => some n | _ => none) rng,
          decodeOptIndividual best with
      | some p, some rs, some b => some ⟨r, p, rs, b⟩
      | _, _, _ => none
  | _ => none

/-! ### Round-trip lemmas for the checkpoint encoding -/

theorem decodeInt_encodeInt (i : ℤ) : decodeInt (encodeInt i) = some i := by
  unfold encodeInt
  by_cases h : i < 0
  · rw [if_pos h]
    show some (-(((-i).toNat : ℕ) : ℤ)) = some i
    rw [Int.toNat_of_nonneg (by omega : (0 : ℤ) ≤ -i), neg_neg]
  · rw [if_neg h]
    show some ((i.toNat : ℤ)) = some i
    rw [Int.toNat_of_nonneg (by omega : (0 : ℤ) ≤ i)]

theorem decodeRat_encodeRat (q : ℚ) : decodeRat (encodeRat q) = some q := by
  show (match decodeInt (encodeInt q.num) with
    | some n => some ((n : ℚ) / (q.den : ℚ))
    | none => none) = some q
  rw [decodeInt_encodeInt]
  simp [Rat.num_div_den]

theorem decodeNode_encodeNode (n : Node) : decodeNode (encodeNode n) = some n := rfl

theorem decodeListWith_map {α : Type} (f : SData → Option α) (enc : α → SData)
    (hf : ∀ a, f (enc a) = some a) (l : List α) :
    decodeListWith f (l.map enc) = some l := by
  induction l with
  | nil => rfl
  | cons a t ih =>
      unfold decodeListWith
      rw [List.map_cons] at *
      show (match f (enc a), decodeListWith f (t.map enc) with
        | some a, some as => some (a :: as)
        | _, _ => none) = some (a :: t)
      rw [hf a, ih]

theorem decodeArch_encodeArch (A : Architecture) :
    decodeArch (encodeArch A) = some A := by
  simp [encodeArch, decodeArch,
    decodeListWith_map decodeNode encodeNode decodeNode_encodeNode]

theorem decodeMetrics_encodeMetrics (m : Metrics) :
    decodeMetrics (encodeMetrics m) = some m := by
  simp [encodeMetrics, decodeMetrics, decodeRat_encodeRat]

theorem decodeOptMetrics_encodeOptMetrics (m : Option Metrics) :
    decodeOptMetrics (encodeOptMetrics m) = some m := by
  cases m with
  | none => rfl
  | some x =>
      simp [encodeOptMetrics, decodeOptMetrics, decodeMetrics_encodeMetrics]

theorem decodeIndividual_encodeIndividual (i : Individual) :
    decodeIndividual (encodeIndividual i) = some i := by
  simp [encodeIndividual, decodeIndividual, decodeArch_encodeArch,
    decodeOptMetrics_encodeOptMetrics, decodeRat_encodeRat]

theorem decodeOptIndividual_encodeOptIndividual (i : Option Individual) :
    decodeOptIndividual (encodeOptIndividual i) = some i := by
  cases i with
  | none => rfl
  | some x =>
      simp [encodeOptIndividual, decodeOptIndividual,
        decodeIndividual_encodeIndividual]

theorem load_save (st : SearchState) : load (save st) = some st := by
  simp [save, load,
    decodeListWith_map decodeIndividual encodeIndividual
      decodeIndividual_encodeIndividual,
    decodeListWith_map (fun x => match x with | .num n => some n | _ => none)
      SData.num (fun a => rfl),
    decodeOptIndividual_encodeOptIndividual]

/-! ### One engine round and the resumed-run trajectory -/

/-- The tournament winner: the best-fitness individual of a nonempty entrant
list, `none` on an empty one. -/
def bestOfList : List Individual → Option Individual
  | [] => none
  | x :: xs => some (xs.foldl (fun a b => if b.fitness < a.fitness then b else a) x)

/-- Modelled from the spec: draw a tournament sample from the population,
driven by the round's random draw. -/
def tournamentEntrants (c T : ℕ) (pop : List Individual) : List Individual :=
  (List.range T).filterMap (fun t => pop.get? (c / (t + 1) % pop.length))

/-- Score an evaluated offspring with the bound policy, at age 0. -/
def scoreChild (ev : Architecture → Metrics) (bc : BoundConfig)
    (a : Architecture) : Individual :=
  ⟨a, some (ev a), (evaluate_feasibility (ev a) bc).2, 0⟩

/-- Modelled from the spec: the offspring architecture — one morph of the
tournament winner sampled by the round's draw, or a fresh random architecture
when the parent offers no morph (or no parent could be drawn). -/
def offspringArch (c : ℕ) (parent : Option Individual) : Architecture :=
  match parent with
  | none => random_arch_2d [c]
  | some p =>
      match produce_all_morphs p.arch with
      | [] => random_arch_2d [c]
      | m :: ms => (m :: ms).getD (c % (ms.length + 1)) m

/-- Modelled from the spec: update the running best record when the new
individual is feasible and strictly better. -/
def updateBest (bc : BoundConfig) (best : Option Individual)
    (child : Individual) : Option Individual :=
  match child.metrics with
  | none => best
  | some met =>
      if feasible met bc then
        match best with
        | none => some child
        | some b => if child.fitness < b.fitness then some child else best
      else best

/-- Modelled from the spec: one full engine round — select a parent by
tournament, mutate, evaluate through the external evaluator `ev`, score with
the bound policy, age and cull, and track the best individual, consuming one
draw of the explicit random stream. -/
def runRound (ev : Architecture → Metrics) (bc : BoundConfig) (T maxAge : ℕ)
    (st : SearchState) : SearchState :=
  match st.rngState with
  | [] => { st with round := st.round + 1 }
  | c :: rest =>
      let child := scoreChild ev bc
        (offspringArch c (bestOfList (tournamentEntrants c T st.population)))
      { round := st.round + 1
        population := insertAndCull maxAge st.population child
        rngState := rest
        best := updateBest bc st.best child }

/-- Run `k` engine rounds. -/
def runRounds (ev : Architecture → Metrics) (bc : BoundConfig) (T maxAge : ℕ) :
    ℕ → SearchState → SearchState
  | 0, st => st
  | k + 1, st => runRounds ev bc T maxAge k (runRound ev bc T maxAge st)

/-- The best-individual record over the next `K` rounds. -/
def bestTrajectory (ev : Architecture → Metrics) (bc : BoundConfig)
    (T maxAge K : ℕ) (st : SearchState) : List (Option Individual) :=
  (List.range K).map (fun k => (runRounds ev bc T maxAge k st).best)

/-- C7: `load (save state)` reproduces the search state exactly — same
population entries (architectures, metrics, fitness, ages), round index and
best record — so resuming for `K` rounds yields the same states and the same
best-individual trajectory as continuing un-checkpointed for `K` rounds. -/
theorem checkpoint_roundtrip_resume (st : SearchState)
    (ev : Architecture → Metrics) (bc : BoundConfig) (T maxAge K : ℕ) :
    load (save st) = some st ∧
    bestTrajectory ev bc T maxAge K ((load (save st)).getD st) =
      bestTrajectory ev bc T maxAge K st ∧
    runRounds ev bc T maxAge K ((load (save st)).getD st) =
      runRounds ev bc T maxAge K st := by
  refine ⟨load_save st, ?_, ?_⟩ <;> rw [load_save st] <;> rfl

/-! ### The search-space facade `Cnn2DSearchSpace`
(`uNAS/cnn2d/cnn2d_search_space.py`) -/

/-- The instance state of `Cnn2DSearchSpace`: the class attributes
`input_shape` and `num_classes` (class default `None`) and the `dropout`
value set by `__init__`. -/
structure Cnn2DSearchSpace where
  input_shape : Option (List ℕ) := none
  num_classes : Option ℕ := none
  dropout : ℚ := 0
deriving DecidableEq, Repr

/-- Model of `Cnn2DSearchSpace.__init__` (line 29): sets only `dropout` (default 0.0),
leaving the class attributes at `None`. -/
def Cnn2DSearchSpace.init (dropout : ℚ) : Cnn2DSearchSpace :=
  ⟨none, none, dropout⟩

/-- The `schema` property (lines 32–34): every access calls `get_schema()`. -/
def Cnn2DSearchSpace.schema (_ : Cnn2DSearchSpace) : Schema := get_schema ()

/-- Model of `random_architecture` (lines 36–37): delegates to `random_arch_2d`. -/
def Cnn2DSearchSpace.random_architecture (_ : Cnn2DSearchSpace)
    (cs : List ℕ) : Architecture :=
  random_arch_2d cs

/-- Model of `produce_morphs` (lines 39–40): delegates to `produce_all_morphs`. -/
def Cnn2DSearchSpace.produce_morphs (_ : Cnn2DSearchSpace)
    (arch : Architecture) : List Architecture :=
  produce_all_morphs arch

/-- Python truthiness of the `input_shape` argument: `None` and the empty
tuple are falsy. -/
def truthyShape : Option (List ℕ) → Bool
  | none => false
  | some l => !l.isEmpty

/-- Python truthiness of the `num_classes` argument: `None` and `0` are
falsy. -/
def truthyNat : Option ℕ → Bool
  | none => false
  | some n => decide (n ≠ 0)

/-- Python `or` on `input_shape`-typed values. -/
def pyOrShape (a b : Option (List ℕ)) : Option (List ℕ) :=
  if truthyShape a then a else b

/-- Python `or` on `num_classes`-typed values. -/
def pyOrNat (a b : Option ℕ) : Option ℕ :=
  if truthyNat a then a else b

/-- The arguments handed to the underlying model builder
`arch.to_keras_model`. -/
structure KerasArgs where
  arch : Architecture
  input_shape : Option (List ℕ)
  num_classes : Option ℕ
  dropout : ℚ
deriving DecidableEq, Repr

/-- Model of `to_keras_model` (lines 42–47): rebinds
`input_shape = input_shape or self.input_shape`, then calls the builder with
`input_shape or self.input_shape`, `num_classes or self.num_classes` and
`dropout=self.dropout`. -/
def Cnn2DSearchSpace.to_keras_model (sp : Cnn2DSearchSpace)
    (arch : Architecture) (input_shape : Option (List ℕ))
    (num_classes : Option ℕ) : KerasArgs :=
  let ish := pyOrShape input_shape sp.input_shape
  { arch := arch
    input_shape := pyOrShape ish sp.input_shape
    num_classes := pyOrNat num_classes sp.num_classes
    dropout := sp.dropout }

/-- C9: every access to the facade's `schema` property yields the same single
schema value, for any instance, and every architecture the system produces —
randomly generated or a morph of any parent — validates against that one
schema. -/
theorem single_schema_instance (sp1 sp2 : Cnn2DSearchSpace) :
    sp1.schema = theSchema ∧ sp1.schema = sp2.schema ∧
    (∀ cs, validate sp1.schema (sp1.random_architecture cs) = true) ∧
    (∀ A M, M ∈ sp1.produce_morphs A → validate sp1.schema M = true) :=
  ⟨rfl, rfl, fun cs => random_arch_2d_valid cs,
    fun _ _ h => validate_of_mem_morphs h⟩

/-- Witness for C9: a concrete morph candidate validates against the unique
schema of a concrete facade instance. -/
theorem single_schema_instance_holds :
    validate (Cnn2DSearchSpace.init 0).schema ⟨[⟨0, 2, 1⟩, ⟨2, 1, 1⟩]⟩ = true :=
  (single_schema_instance (Cnn2DSearchSpace.init 0)
    (Cnn2DSearchSpace.init 0)).2.2.2 ⟨[⟨0, 1, 1⟩, ⟨2, 1, 1⟩]⟩
    ⟨[⟨0, 2, 1⟩, ⟨2, 1, 1⟩]⟩ (by decide)

/-- C10: a falsy `input_shape` argument is replaced by the instance
attribute; a falsy `num_classes` argument (`None` or `0`) is replaced by the
instance attribute; truthy arguments pass through; the builder always
receives the construction-time dropout; and an explicit `num_classes=0`
never reaches the builder — on a freshly constructed instance it is turned
into `None`. -/
theorem to_keras_model_defaults (sp : Cnn2DSearchSpace) (arch : Architecture)
    (ish : Option (List ℕ)) (ncl : Option ℕ) :
    (truthyShape ish = false →
      (sp.to_keras_model arch ish ncl).input_shape = sp.input_shape) ∧
    (truthyNat ncl = false →
      (sp.to_keras_model arch ish ncl).num_classes = sp.num_classes) ∧
    (truthyShape ish = true →
      (sp.to_keras_model arch ish ncl).input_shape = ish) ∧
    (truthyNat ncl = true →
      (sp.to_keras_model arch ish ncl).num_classes = ncl) ∧
    (sp.to_keras_model arch ish ncl).dropout = sp.dropout ∧
    sp.to_keras_model arch ish (some 0) = sp.to_keras_model arch ish none ∧
    ∀ d, (Cnn2DSearchSpace.init d).input_shape = none ∧
      (Cnn2DSearchSpace.init d).num_classes = none ∧
      (Cnn2DSearchSpace.init d).dropout = d ∧
      ((Cnn2DSearchSpace.init d).to_keras_model arch ish (some 0)).num_classes ≠
        some 0 := by
  refine ⟨?_, ?_, ?_, ?_, rfl, ?_, ?_⟩
  · intro h
    simp [Cnn2DSearchSpace.to_keras_model, pyOrShape, h, ite_self]
  · intro h
    simp [Cnn2DSearchSpace.to_keras_model, pyOrNat, h]
  · intro h
    simp [Cnn2DSearchSpace.to_keras_model, pyOrShape, h]
  · intro h
    simp [Cnn2DSearchSpace.to_keras_model, pyOrNat, h]
  · simp [Cnn2DSearchSpace.to_keras_model, pyOrNat, truthyNat]
  · intro d
    refine ⟨rfl, rfl, rfl, ?_⟩
    simp [Cnn2DSearchSpace.to_keras_model, Cnn2DSearchSpace.init, pyOrNat,
      truthyNat]

/-- Witness for C10: with `num_classes=0` passed explicitly to a fresh
instance, the builder receives `None`, not `0`. -/
theorem to_keras_model_defaults_holds :
    ((Cnn2DSearchSpace.init 0).to_keras_model ⟨[⟨0, 1, 1⟩]⟩ none
      (some 0)).num_classes ≠ some 0 :=
  ((to_keras_model_defaults (Cnn2DSearchSpace.init 0) ⟨[⟨0, 1, 1⟩]⟩ none
    (some 0)).2.2.2.2.2.2 0).2.2.2

end UNAS
